import Mathlib

/-!
# Verification of the PycQED Sequence/waveform-compilation engine

Shallow embedding of `pycqed/measurement/waveform_control/sequence.py`
(class `Sequence`: `add`, `generate_waveforms_sequences`, `n_segments`,
`n_acq_elements`, `merge`, `compress_2D_sweep`) and of
`modules/measurement/waveform_control/pulse_library.py`
(`MW_IQmod_pulse.chan_wf`, `SSB_DRAG_pulse.chan_wf` / `apply_modulation`).

Python `OrderedDict`s are embedded as association lists in insertion order;
Python exceptions are embedded as `Except` results; NumPy float arrays are
embedded as `List ℝ`.
-/

/-- The Python exceptions that the embedded code can raise. -/
inductive MergeError where
  | valueError
  | assertionError
  | nameError
  | keyError
  | notImplementedError
  | indexError
  deriving DecidableEq, Repr

/-- A resolved `Segment` as seen by `Sequence.generate_waveforms_sequences`
and `Sequence.merge`: its mutable `name`, the per-AWG element lists produced by
`gen_elements_on_awg`, the codeword/channel queries, the content hash
`calculate_hash`, the evaluated sample array extracted from
`Segment.waveforms` (the four `popitem` calls collapse the singleton nested
dict to the array itself), and `acquisition_elements`. -/
structure Segment where
  name : String
  elements_on_awg : String → List String
  element_codewords : String → String → List String
  element_channels : String → String → List String
  calculate_hash : String → String → String → Nat
  waveform : String → String → String → String → List ℝ
  acquisition_elements : List String

/-- A `Sequence`: ordered segment mapping (keyed by segment name, insertion
order = playback order), repeat patterns `channel ↦ (count, inner_loop_size)`,
and the pulsar's `f'{ch}_id'` lookup used when emitting the per-AWG program. -/
structure Sequence where
  name : String
  segments : List Segment
  repeat_patterns : List (String × (Nat × Nat))
  pulsar_chan_id : String → String

/-- The keys of the ordered segment mapping. -/
def segNames (s : Sequence) : List String := s.segments.map Segment.name

/-- `Sequence.n_segments`. -/
def Sequence.n_segments (s : Sequence) : Nat := s.segments.length

/-- `Sequence.n_acq_elements()` (the default `per_segment=False` form):
total number of acquisition elements over all segments. -/
def Sequence.n_acq_elements (s : Sequence) : Nat :=
  (s.segments.map (fun seg => seg.acquisition_elements.length)).sum

/-- `Sequence.add`: raise `NameError` if the segment name is already a key of
`self.segments`, otherwise insert at the end (Python `odict` assignment with a
fresh key appends).  The `raise` happens before any mutation, so on the error
branch the sequence is untouched. -/
def Sequence.add (s : Sequence) (segment : Segment) : Except MergeError Sequence :=
  if segment.name ∈ segNames s then .error .nameError
  else .ok { s with segments := s.segments ++ [segment] }

/-- Association-list lookup (Python `dict` read `d[k]` / `k in d`). -/
def alLookup {α : Type} (l : List (String × α)) (k : String) : Option α :=
  (l.find? (fun kv => kv.1 = k)).map (·.2)

/-- Association-list in-place value replacement (Python `d[k] = v` with `k`
already present: position in insertion order is preserved). -/
def alUpdate {α : Type} (l : List (String × α)) (k : String) (v : α) :
    List (String × α) :=
  l.map (fun kv => if kv.1 = k then (k, v) else kv)

/-- `np.inf` when `segment_limit is None`: `n <= segment_limit`. -/
def withinLimit : Option Nat → Nat → Bool
  | none, _ => true
  | some l, n => n ≤ l

/-- `{s: 1 for s in seq.segments}`: the fresh occurrence dictionary created for
each new accumulator inside `Sequence.merge`. -/
def initOcc (s : Sequence) : List (String × Nat) :=
  s.segments.map (fun sg => (sg.name, 1))

/-- The inner loop of `Sequence.merge` that folds the segments of the incoming
sequence into the current accumulator: `add`, and on `NameError` increment the
occurrence counter (Python `d[k] += 1`: `KeyError` if the name is untracked),
rename the (copied) segment to `{name}_copy_from_merge_{count - 1}` and `add`
again (this second `add` is outside the `try`, so its `NameError` escapes). -/
def mergeFoldSegs (acc : Sequence) (occ : List (String × Nat)) :
    List Segment → Except MergeError (Sequence × List (String × Nat))
  | [] => .ok (acc, occ)
  | seg :: rest =>
    match Sequence.add acc seg with
    | .ok acc' => mergeFoldSegs acc' occ rest
    | .error _ =>
      match alLookup occ seg.name with
      | none => .error .keyError
      | some n =>
        let occ' := alUpdate occ seg.name (n + 1)
        let seg' := { seg with name := seg.name ++ ("_copy_from_merge_" ++ toString n) }
        match Sequence.add acc seg' with
        | .ok acc' => mergeFoldSegs acc' occ' rest
        | .error e => .error e

/-- The repeat-pattern reconciliation loop of `Sequence.merge`
(`merge_repeat_patterns=True` branch): for each incoming `(channel, pattern)`,
if the channel already has a pattern the two `inner_loop_size`s (second
components) must agree (`NotImplementedError` otherwise) and the counts are
summed in place; otherwise the pattern is appended. -/
def mergeRepeatPatterns (acc : List (String × (Nat × Nat))) :
    List (String × (Nat × Nat)) → Except MergeError (List (String × (Nat × Nat)))
  | [] => .ok acc
  | (ch, pat) :: rest =>
    match alLookup acc ch with
    | some prev =>
      if prev.2 ≠ pat.2 then .error .notImplementedError
      else mergeRepeatPatterns (alUpdate acc ch (prev.1 + pat.1, prev.2)) rest
    | none => mergeRepeatPatterns (acc ++ [(ch, pat)]) rest

/-- The main loop of `Sequence.merge` over `sequences[1:]`: assert the incoming
sequence fits the limit, start a new accumulator when the combined segment
count would exceed the limit, otherwise fold the segments in, update the
accumulator name, and (optionally) reconcile repeat patterns. -/
def mergeLoop (limit : Option Nat) (mrp : Bool) (done : List Sequence)
    (acc : Sequence) (occ : List (String × Nat)) :
    List Sequence → Except MergeError (List Sequence)
  | [] => .ok (done ++ [acc])
  | seq :: rest =>
    if withinLimit limit seq.n_segments then
      if withinLimit limit (acc.n_segments + seq.n_segments) then
        match mergeFoldSegs acc occ seq.segments with
        | .error e => .error e
        | .ok (acc', occ') =>
          let acc2 := { acc' with name := acc'.name ++ ("+" ++ seq.name) }
          if mrp then
            match mergeRepeatPatterns acc2.repeat_patterns seq.repeat_patterns with
            | .error e => .error e
            | .ok pats =>
                mergeLoop limit mrp done { acc2 with repeat_patterns := pats } occ' rest
          else mergeLoop limit mrp done acc2 occ' rest
      else mergeLoop limit mrp (done ++ [acc]) seq (initOcc seq) rest
    else .error .assertionError

/-- `Sequence.merge(sequences, segment_limit, merge_repeat_patterns)`:
`ValueError` on an empty list, the list itself for a single sequence, and
otherwise the accumulator loop over deep copies (deep copies are value copies
in this embedding; the heap-level copying is modelled by `mergeStore` below). -/
def Sequence.merge (sequences : List Sequence) (segment_limit : Option Nat)
    (merge_repeat_patterns : Bool) : Except MergeError (List Sequence) :=
  match sequences with
  | [] => .error .valueError
  | [s] => .ok [s]
  | s :: rest =>
      mergeLoop segment_limit merge_repeat_patterns [] s (initOcc s) rest

/-- A heap of `Sequence` objects: object references are indices into `data`.
Used to state the frame properties of `Sequence.merge`, whose first action on
a list of two or more sequences is `sequences = [deepcopy(s) for s in
sequences]`, after which only the fresh copies are ever mutated. -/
structure Store where
  data : List Sequence

/-- Dereference an object reference. -/
def Store.get (st : Store) (r : Nat) : Option Sequence := st.data[r]?

/-- Heap-level `Sequence.merge`: empty list raises `ValueError` touching
nothing; a singleton list is returned as-is (same reference, no copy); with
two or more references the sequences are deep-copied to fresh addresses
(`st.data ++ seqs`) and the merge then works exclusively on (and allocates
its results after) those copies, so addresses below `st.data.length` are
never written — also when the merge aborts with an error after copying. -/
def mergeStore (st : Store) (refs : List Nat) (limit : Option Nat) (mrp : Bool) :
    Store × Except MergeError (List Nat) :=
  match refs with
  | [] => (st, .error .valueError)
  | [r] => (st, .ok [r])
  | _ =>
    match refs.mapM st.get with
    | none => (st, .error .keyError)
    | some seqs =>
      let base := st.data.length + seqs.length
      match Sequence.merge seqs limit mrp with
      | .error e => (⟨st.data ++ seqs⟩, .error e)
      | .ok out =>
          (⟨(st.data ++ seqs) ++ out⟩, .ok ((List.range out.length).map (base + ·)))

/-- Modelled from the spec: `pycqed.utilities.math.factors` (imported by
`Sequence.compress_2D_sweep` but not part of this repository snapshot)
"Computes the integer divisors of `len(sequences)`"; returned here in
ascending order, the caller sorts and reverses. -/
def factors (n : Nat) : List Nat :=
  (List.range (n + 1)).filter (fun d => decide (0 < d) && decide (d ∣ n))

/-- The factor-selection loop of `compress_2D_sweep` over the descending
divisor list: skip factors that overflow the limit, break at the first
feasible one (warning, not an error, when that factor is 1); if no factor is
feasible the Python loop variable retains the last divisor, which is 1. -/
def pickFactor (n_seg : Nat) (limit : Option Nat) : List Nat → Nat
  | [] => 1
  | [f] => f
  | f :: g :: rest =>
    if withinLimit limit (f * n_seg) then f else pickFactor n_seg limit (g :: rest)

/-- `Sequence.compress_2D_sweep`: assert all sequences have the same number of
segments, pick the compression factor from the descending divisors of
`len(sequences)`, merge with the effective limit `factor * n_seg`, and return
the compressed list plus the recomputed hard/soft sweep-point index arrays and
the factor. -/
def Sequence.compress_2D_sweep (sequences : List Sequence)
    (segment_limit : Option Nat) (merge_repeat_patterns : Bool) :
    Except MergeError (List Sequence × List Nat × List Nat × Nat) :=
  match sequences with
  | [] => .error .assertionError
  | s0 :: _ =>
    if (sequences.map Sequence.n_segments).dedup.length ≠ 1 then
      .error .assertionError
    else
      let n_soft_sp := sequences.length
      let n_seg := s0.n_segments
      let compression_fact := (factors n_soft_sp).reverse
      let factor := pickFactor n_seg segment_limit compression_fact
      let seg_lim_eff := factor * n_seg
      match Sequence.merge sequences (some seg_lim_eff) merge_repeat_patterns with
      | .error e => .error e
      | .ok compressed =>
        match compressed with
        | [] => .error .indexError
        | c0 :: _ =>
          .ok (compressed, List.range c0.n_acq_elements,
               List.range compressed.length, factor)

/-- The per-element program entry emitted by `generate_waveforms_sequences`:
the `metadata['acq']` flag plus, per codeword, the `channel_id ↦ hash` map. -/
structure ElementProg where
  acq : Bool
  cws : List (String × List (String × Nat))

/-- The waveform table `waveforms`: `hash ↦ sample array`, in insertion order. -/
abbrev WfTable := List (Nat × List ℝ)

/-- Python `dict` assignment `d[k] = v`: replace in place when the key exists,
append otherwise. -/
def dictInsert {α : Type} (m : List (String × α)) (k : String) (v : α) :
    List (String × α) :=
  if m.any (fun kv => kv.1 = k) then alUpdate m k v else m ++ [(k, v)]

/-- `if h not in waveforms: waveforms[h] = <evaluated array>`. -/
def insertWaveform (wfs : WfTable) (h : Nat) (wf : List ℝ) : WfTable :=
  if wfs.any (fun kv => kv.1 = h) then wfs else wfs ++ [(h, wf)]

/-- Innermost loop of `generate_waveforms_sequences` (over channels): record
`sequences[awg][elname][cw][chid] = h` and insert the evaluated waveform into
the table when its hash is absent. -/
def genCh (s : Sequence) (seg : Segment) (awg elname cw : String)
    (st : WfTable × List (String × Nat)) (ch : String) :
    WfTable × List (String × Nat) :=
  let h := seg.calculate_hash elname cw ch
  let chid := s.pulsar_chan_id ch
  (insertWaveform st.1 h (seg.waveform awg elname cw ch), dictInsert st.2 chid h)

/-- Loop over codewords: `sequences[awg][elname][cw] = {}` then the channel
loop. -/
def genCw (s : Sequence) (seg : Segment) (awg elname : String)
    (st : WfTable × List (String × List (String × Nat))) (cw : String) :
    WfTable × List (String × List (String × Nat)) :=
  let inner := (seg.element_channels elname awg).foldl
      (genCh s seg awg elname cw) (st.1, [])
  (inner.1, dictInsert st.2 cw inner.2)

/-- Loop over the elements of one segment on one AWG:
`sequences[awg][elname] = {'metadata': {}}`, the codeword loop, then
`metadata['acq']` from membership in `acquisition_elements`. -/
def genEl (s : Sequence) (seg : Segment) (awg : String)
    (st : WfTable × List (String × Option ElementProg)) (elname : String) :
    WfTable × List (String × Option ElementProg) :=
  let inner := (seg.element_codewords elname awg).foldl
      (genCw s seg awg elname) (st.1, [])
  (inner.1,
   dictInsert st.2 elname
     (some ⟨decide (elname ∈ seg.acquisition_elements), inner.2⟩))

/-- Loop over segments for one AWG: `sequences[awg][segname] = None` then the
element loop. -/
def genSeg (s : Sequence) (awg : String)
    (st : WfTable × List (String × Option ElementProg)) (seg : Segment) :
    WfTable × List (String × Option ElementProg) :=
  (seg.elements_on_awg awg).foldl (genEl s seg awg)
    (st.1, dictInsert st.2 seg.name none)

/-- Loop over AWGs: `sequences[awg] = odict()` filled by the segment loop. -/
def genAwg (s : Sequence)
    (st : WfTable × List (String × List (String × Option ElementProg)))
    (awg : String) :
    WfTable × List (String × List (String × Option ElementProg)) :=
  let inner := s.segments.foldl (genSeg s awg) (st.1, [])
  (inner.1, dictInsert st.2 awg inner.2)

/-- `Sequence.generate_waveforms_sequences(awgs)`: returns the waveform table
(hash-indexed, shared across all AWGs/segments of this call) and the per-AWG
program.  Segments arrive already resolved in this embedding
(`resolve_segment` / `gen_elements_on_awg` are the identity on the fields
used here). -/
def Sequence.generate_waveforms_sequences (s : Sequence) (awgs : List String) :
    WfTable × List (String × List (String × Option ElementProg)) :=
  awgs.foldl (genAwg s) ([], [])

/-- The hash of every (awg, segment, element, codeword, channel) reference
visited by `generate_waveforms_sequences`, in visiting order. -/
def segElementHashes (seg : Segment) (awg : String) : List Nat :=
  (seg.elements_on_awg awg).flatMap (fun elname =>
    (seg.element_codewords elname awg).flatMap (fun cw =>
      (seg.element_channels elname awg).map (fun ch =>
        seg.calculate_hash elname cw ch)))

/-- All hashes referenced over the AWG/segment iteration. -/
def allHashes (s : Sequence) (awgs : List String) : List Nat :=
  awgs.flatMap (fun awg => s.segments.flatMap (fun seg => segElementHashes seg awg))

noncomputable section

open Real

/-- `np.where(tvals >= tvals[0])[0][0]`: the first index whose sample is at or
after the first sample (this is always index 0 for a non-empty array). -/
def firstIdxGe (tvals : List ℝ) (c : ℝ) : Nat :=
  tvals.findIdx (fun t => decide (c ≤ t))

/-- `np.where(tvals <= c)[0][-1]`: the last index whose sample is at most `c`,
`none` when no index qualifies (Python `IndexError`). -/
def lastIdxLe (tvals : List ℝ) (c : ℝ) : Option Nat :=
  ((List.range tvals.length).filter (fun i => decide (tvals.getD i 0 ≤ c))).getLast?

/-- `MW_IQmod_pulse`: block pulse on the I channel with IQ modulation
(fields in the source's `__init__` order). -/
structure MW_IQmod_pulse where
  I_channel : String
  Q_channel : String
  mod_frequency : ℝ
  amplitude : ℝ
  length : ℝ
  phase : ℝ
  phaselock : Bool

/-- `MW_IQmod_pulse.chan_wf(chan, tvals)`: zeros outside the
`[idx0, idx1)` index window; inside it, `amplitude * cos(2π(f·t + phase/360))`
is added on the I channel and `amplitude * sin(...)` on the Q channel (both,
if the two channel names coincide).  Without `phaselock` the time values are
shifted so the wave starts with zero phase at the effective start time.
`none` models the `IndexError` when no sample lies in the pulse window. -/
def MW_IQmod_pulse.chan_wf (p : MW_IQmod_pulse) (chan : String)
    (tvals : List ℝ) : Option (List ℝ) :=
  match lastIdxLe tvals (tvals.headD 0 + p.length) with
  | none => none
  | some last =>
    let idx0 := firstIdxGe tvals (tvals.headD 0)
    let idx1 := last + 1
    let tv := if p.phaselock then tvals else tvals.map (· - tvals.getD idx0 0)
    some ((List.range tvals.length).map (fun i =>
      (if chan = p.I_channel ∧ idx0 ≤ i ∧ i < idx1 then
        p.amplitude *
          Real.cos (2 * π * (p.mod_frequency * tv.getD i 0 + p.phase / 360))
       else 0) +
      (if chan = p.Q_channel ∧ idx0 ≤ i ∧ i < idx1 then
        p.amplitude *
          Real.sin (2 * π * (p.mod_frequency * tv.getD i 0 + p.phase / 360))
       else 0)))

/-- `SSB_DRAG_pulse`: Gaussian on I, derivative of Gaussian on Q, with single
sideband modulation and mixer predistortion (fields in `__init__` order;
`length = sigma * nr_sigma` is the derived attribute). -/
structure SSB_DRAG_pulse where
  I_channel : String
  Q_channel : String
  amplitude : ℝ
  sigma : ℝ
  nr_sigma : ℝ
  motzoi : ℝ
  mod_frequency : ℝ
  phase : ℝ
  phaselock : Bool
  alpha : ℝ
  phi_skew : ℝ

/-- `self.length = self.sigma * self.nr_sigma`. -/
def SSB_DRAG_pulse.length (p : SSB_DRAG_pulse) : ℝ := p.sigma * p.nr_sigma

/-- `gauss_env = amplitude * exp(-(0.5 * ((t-mu)**2) / sigma**2))` with
`t = tvals - tvals[0]` and `mu = length/2`, before offset subtraction. -/
def gaussEnv (p : SSB_DRAG_pulse) (tvals : List ℝ) : List ℝ :=
  tvals.map (fun tval =>
    p.amplitude *
      Real.exp (-(0.5 * ((tval - tvals.headD 0) - p.length / 2) ^ 2 / p.sigma ^ 2)))

/-- `deriv_gauss_env = motzoi * -1 * (t-mu)/(sigma**1) * gauss_env`, before
offset subtraction. -/
def derivGaussEnv (p : SSB_DRAG_pulse) (tvals : List ℝ) : List ℝ :=
  tvals.map (fun tval =>
    p.motzoi * (-1) * ((tval - tvals.headD 0) - p.length / 2) / p.sigma ^ 1 *
      (p.amplitude *
        Real.exp (-(0.5 * ((tval - tvals.headD 0) - p.length / 2) ^ 2 / p.sigma ^ 2))))

/-- `env -= (env[0] + env[-1]) / 2`: DC-offset subtraction. -/
def subtractOffset (l : List ℝ) : List ℝ :=
  l.map (fun v => v - (l.headD 0 + l.getLastD 0) / 2)

/-- `SSB_DRAG_pulse.apply_modulation(I_env, Q_env, tvals)`: the combined
predistortion-and-modulation matrix applied pointwise, with
`x = 2π(mod_frequency·t + phase/360)`. -/
def SSB_DRAG_pulse.apply_modulation (p : SSB_DRAG_pulse)
    (I_env Q_env tvals : List ℝ) : List ℝ × List ℝ :=
  let tanPhiSkew := Real.tan (2 * π * p.phi_skew / 360)
  let secPhiAlpha := 1 / (Real.cos (2 * π * p.phi_skew / 360) * p.alpha)
  ((List.range tvals.length).map (fun i =>
     I_env.getD i 0 *
       (Real.cos (2 * π * (p.mod_frequency * tvals.getD i 0 + p.phase / 360)) -
        tanPhiSkew *
          Real.sin (2 * π * (p.mod_frequency * tvals.getD i 0 + p.phase / 360))) +
     Q_env.getD i 0 *
       (Real.sin (2 * π * (p.mod_frequency * tvals.getD i 0 + p.phase / 360)) +
        tanPhiSkew *
          Real.cos (2 * π * (p.mod_frequency * tvals.getD i 0 + p.phase / 360)))),
   (List.range tvals.length).map (fun i =>
     -1 * I_env.getD i 0 * secPhiAlpha *
       Real.sin (2 * π * (p.mod_frequency * tvals.getD i 0 + p.phase / 360)) +
     Q_env.getD i 0 * secPhiAlpha *
       Real.cos (2 * π * (p.mod_frequency * tvals.getD i 0 + p.phase / 360))))

/-- `SSB_DRAG_pulse.chan_wf(chan, tvals)`: DC-corrected Gaussian and
derivative-of-Gaussian envelopes over the full (start-aligned) time axis,
modulated over the sliced time axis `tvals[idx0:idx1]` and written into the
`[idx0, idx1)` window of a zero array.  The full-length envelopes are
broadcast against the sliced axis, so NumPy raises (modelled by `none`) when a
modulated channel is requested and the slice is shorter than the array. -/
def SSB_DRAG_pulse.chan_wf (p : SSB_DRAG_pulse) (chan : String)
    (tvals : List ℝ) : Option (List ℝ) :=
  match lastIdxLe tvals (tvals.headD 0 + p.length) with
  | none => none
  | some last =>
    let idx0 := firstIdxGe tvals (tvals.headD 0)
    let idx1 := last + 1
    let tv := if p.phaselock then tvals else tvals.map (· - tvals.getD idx0 0)
    let g := subtractOffset (gaussEnv p tvals)
    let d := subtractOffset (derivGaussEnv p tvals)
    if (chan = p.I_channel ∨ chan = p.Q_channel) ∧ idx1 - idx0 ≠ tvals.length then
      none
    else
      let mods := p.apply_modulation g d ((tv.drop idx0).take (idx1 - idx0))
      some ((List.range tvals.length).map (fun i =>
        (if chan = p.I_channel ∧ idx0 ≤ i ∧ i < idx1 then
          mods.1.getD (i - idx0) 0 else 0) +
        (if chan = p.Q_channel ∧ idx0 ≤ i ∧ i < idx1 then
          mods.2.getD (i - idx0) 0 else 0)))

end

/-! ## Concrete objects used in witnesses and counterexamples -/

instance exceptDecEq {ε α : Type} [DecidableEq ε] [DecidableEq α] :
    DecidableEq (Except ε α) := fun x y =>
  match x, y with
  | .error e, .error e' =>
    if h : e = e' then .isTrue (by rw [h])
    else .isFalse (by intro hc; cases hc; exact h rfl)
  | .error _, .ok _ => .isFalse (by intro hc; cases hc)
  | .ok _, .error _ => .isFalse (by intro hc; cases hc)
  | .ok a, .ok b =>
    if h : a = b then .isTrue (by rw [h])
    else .isFalse (by intro hc; cases hc; exact h rfl)

/-- A segment with the given name and trivial resolved content. -/
def mkSeg (nm : String) : Segment :=
  ⟨nm, fun _ => [], fun _ _ => [], fun _ _ => [], fun _ _ _ => 0,
   fun _ _ _ _ => [], []⟩

/-- A sequence with the given name and segment names, no repeat patterns. -/
def mkSeq (nm : String) (segs : List String) : Sequence :=
  ⟨nm, segs.map mkSeg, [], fun c => c⟩

/-! ## C9: `Sequence.add` is atomic on failure -/

/-- C9: `Sequence.add` raises `NameError` when the segment's name is already a
key of the segments mapping, leaving the mapping unchanged (the error is
raised before any mutation: the error branch carries no modified sequence);
otherwise it appends the segment at the end, preserving the insertion order of
all previously added segments. -/
theorem Sequence.add_atomic (s : Sequence) (segment : Segment) :
    (segment.name ∈ segNames s → Sequence.add s segment = .error .nameError) ∧
    (segment.name ∉ segNames s →
      Sequence.add s segment = .ok { s with segments := s.segments ++ [segment] }) := by
  constructor <;> intro h <;> simp [Sequence.add, h]

/-- Concrete instance of `Sequence.add_atomic`: on the sequence with segments
`a, b`, adding another `a` fails with `NameError` and adding `c` appends. -/
theorem Sequence.add_atomic_witness :
    Sequence.add (mkSeq "s" ["a", "b"]) (mkSeg "a") = .error .nameError ∧
    Sequence.add (mkSeq "s" ["a", "b"]) (mkSeg "c") =
      .ok { mkSeq "s" ["a", "b"] with
              segments := (mkSeq "s" ["a", "b"]).segments ++ [mkSeg "c"] } :=
  ⟨(Sequence.add_atomic (mkSeq "s" ["a", "b"]) (mkSeg "a")).1 (by decide),
   (Sequence.add_atomic (mkSeq "s" ["a", "b"]) (mkSeg "c")).2 (by decide)⟩

/-! ## C10: `merge` on a single-element list is the identity -/

/-- C10: for a list containing exactly one sequence, `Sequence.merge` returns
that list itself: at the heap level the same reference is returned and the
store is untouched (no deep copy, no renaming, no repeat-pattern merging), and
at the value level the result is the identical sequence. -/
theorem merge_singleton_identity (st : Store) (r : Nat) (s : Sequence)
    (limit : Option Nat) (mrp : Bool) :
    mergeStore st [r] limit mrp = (st, .ok [r]) ∧
    Sequence.merge [s] limit mrp = .ok [s] :=
  ⟨rfl, rfl⟩

/-! ## C6: `merge` never mutates the caller's originals -/

/-- C6: for two or more sequences, `Sequence.merge` deep-copies its inputs
first and thereafter only writes to the fresh copies, so every heap cell that
existed before the call is unchanged after it — also when the merge aborts
with an error after copying. -/
theorem merge_preserves_originals (st : Store) (refs : List Nat)
    (limit : Option Nat) (mrp : Bool) (h : 2 ≤ refs.length) :
    ∀ r < st.data.length, (mergeStore st refs limit mrp).1.get r = st.get r := by
  intro r hr
  have key : ∀ l : List Sequence, (Store.mk (st.data ++ l)).get r = st.get r := by
    intro l
    show (st.data ++ l)[r]? = st.data[r]?
    rw [List.getElem?_append, if_pos hr]
  match refs, h with
  | r1 :: r2 :: rest, _ =>
    show (mergeStore st (r1 :: r2 :: rest) limit mrp).1.get r = st.get r
    unfold mergeStore
    cases hm : (r1 :: r2 :: rest).mapM st.get with
    | none => simp [hm]
    | some seqs =>
      cases he : Sequence.merge seqs limit mrp with
      | error e => simpa [hm, he] using key seqs
      | ok out => simpa [hm, he, List.append_assoc] using key (seqs ++ out)

/-- Concrete instance of `merge_preserves_originals`: merging the two stored
sequences leaves the first original heap cell intact. -/
theorem merge_preserves_originals_witness :
    (mergeStore ⟨[mkSeq "A" ["a"], mkSeq "B" ["b"]]⟩ [0, 1] none true).1.get 0 =
      Store.get ⟨[mkSeq "A" ["a"], mkSeq "B" ["b"]]⟩ 0 :=
  merge_preserves_originals ⟨[mkSeq "A" ["a"], mkSeq "B" ["b"]]⟩ [0, 1] none true
    (by decide) 0 (by decide)

/-! ## C3: merge respects the segment limit -/

theorem Sequence.add_ok_segments {s s' : Sequence} {seg : Segment}
    (h : Sequence.add s seg = .ok s') : s'.segments = s.segments ++ [seg] := by
  unfold Sequence.add at h
  split at h
  · exact absurd h (by simp)
  · cases h; rfl

theorem mergeFoldSegs_length :
    ∀ (segs : List Segment) (acc : Sequence) (occ : List (String × Nat))
      (acc' : Sequence) (occ' : List (String × Nat)),
      mergeFoldSegs acc occ segs = .ok (acc', occ') →
      acc'.segments.length = acc.segments.length + segs.length := by
  intro segs
  induction segs with
  | nil =>
    intro acc occ acc' occ' h
    unfold mergeFoldSegs at h
    cases h; simp
  | cons seg rest ih =>
    intro acc occ acc' occ' h
    unfold mergeFoldSegs at h
    split at h
    · next acc1 ha =>
      have := ih acc1 occ acc' occ' h
      rw [this, Sequence.add_ok_segments ha]
      simp [Nat.add_assoc, Nat.add_comm 1 rest.length]
    · split at h
      · exact absurd h (by simp)
      · next n hocc =>
        dsimp only at h
        split at h
        · next acc1 ha =>
          have := ih acc1 _ acc' occ' h
          rw [this, Sequence.add_ok_segments ha]
          simp [Nat.add_assoc, Nat.add_comm 1 rest.length]
        · exact absurd h (by simp)

theorem mergeLoop_limit (limit : Option Nat) (mrp : Bool) :
    ∀ (rest : List Sequence) (done : List Sequence) (acc : Sequence)
      (occ : List (String × Nat)) (out : List Sequence),
      (∀ s ∈ done, withinLimit limit s.n_segments = true) →
      withinLimit limit acc.n_segments = true →
      mergeLoop limit mrp done acc occ rest = .ok out →
      ∀ s ∈ out, withinLimit limit s.n_segments = true := by
  intro rest
  induction rest with
  | nil =>
    intro done acc occ out hdone hacc h s hs
    unfold mergeLoop at h
    cases h
    rcases List.mem_append.1 hs with h1 | h2
    · exact hdone s h1
    · rw [List.mem_singleton.1 h2]; exact hacc
  | cons seq rest ih =>
    intro done acc occ out hdone hacc h s hs
    unfold mergeLoop at h
    split at h
    · next hseq =>
      split at h
      · next hcomb =>
        split at h
        · exact absurd h (by simp)
        · next acc' occ' heq =>
          have hlen := mergeFoldSegs_length _ _ _ _ _ heq
          have hacc' : withinLimit limit acc'.segments.length = true := by
            rw [hlen]; exact hcomb
          dsimp only at h
          split at h
          · split at h
            · exact absurd h (by simp)
            · next pats hpats =>
              exact ih done _ occ' out hdone (by exact hacc') h s hs
          · exact ih done _ occ' out hdone (by exact hacc') h s hs
      · next hcomb =>
        refine ih (done ++ [acc]) seq (initOcc seq) out ?_ hseq h s hs
        intro s' hs'
        rcases List.mem_append.1 hs' with h1 | h2
        · exact hdone s' h1
        · rw [List.mem_singleton.1 h2]; exact hacc
    · exact absurd h (by simp)

/-- C3 (amended): merging greedily folds sequences in input order into the
current accumulator while the combined segment count stays within
`segment_limit` and otherwise starts a new accumulator; provided every INPUT
sequence satisfies `n_segments() <= segment_limit`, every sequence returned by
a successful `Sequence.merge` satisfies `n_segments() <= segment_limit`.
(The hypothesis is necessary: neither a single-element input list nor the
first input sequence is ever checked against the limit, see
`merge_limit_counterexample`.) -/
theorem merge_respects_limit (sequences : List Sequence) (limit : Option Nat)
    (mrp : Bool) (out : List Sequence)
    (hall : ∀ s ∈ sequences, withinLimit limit s.n_segments = true)
    (hok : Sequence.merge sequences limit mrp = .ok out) :
    ∀ s ∈ out, withinLimit limit s.n_segments = true := by
  match sequences with
  | [] => exact absurd hok (by simp [Sequence.merge])
  | [s] =>
    unfold Sequence.merge at hok
    cases hok
    intro s' hs'
    rw [List.mem_singleton.1 hs']
    exact hall s (by simp)
  | s :: s2 :: rest =>
    unfold Sequence.merge at hok
    exact mergeLoop_limit limit mrp (s2 :: rest) [] s (initOcc s) out
      (by simp) (hall s (by simp)) hok

/-- Concrete instance of `merge_respects_limit`: two sequences of one segment
each, limit 2, merge into a single sequence of two segments, within the
limit. -/
theorem merge_respects_limit_witness :
    withinLimit (some 2) (Sequence.n_segments (mkSeq "A+B" ["a", "b"])) = true :=
  merge_respects_limit [mkSeq "A" ["a"], mkSeq "B" ["b"]] (some 2) true
    [mkSeq "A+B" ["a", "b"]] (by decide) (by rfl)
    (mkSeq "A+B" ["a", "b"]) (by simp)

/-- Counterexample to C3 as stated: the input list `[A, B]` with `A` holding
two segments and `B` one is non-empty, `segment_limit = 1`, the merge
succeeds (no error), and the first returned sequence has `n_segments() = 2 >
1`: the first input sequence is never checked against the limit. -/
theorem merge_limit_counterexample :
    (Sequence.merge [mkSeq "A" ["a", "b"], mkSeq "B" ["c"]] (some 1) true).map
        (List.map Sequence.n_segments) = .ok [2, 1] ∧
      withinLimit (some 1) 2 = false := by
  constructor
  · decide
  · decide

/-! ## C4: renaming on segment-name collision during merge -/

theorem alLookup_map_one {l : List Segment} {n : String}
    (h : n ∈ l.map Segment.name) :
    alLookup (l.map (fun sg => (sg.name, 1))) n = some 1 := by
  induction l with
  | nil => simp at h
  | cons sg rest ih =>
    by_cases hsg : sg.name = n
    · simp [alLookup, List.find?, hsg]
    · have hrest : n ∈ rest.map Segment.name := by
        rw [List.map_cons] at h
        rcases List.mem_cons.1 h with h1 | h1
        · exact absurd h1.symm hsg
        · exact h1
      simpa [alLookup, List.find?, hsg] using ih hrest

theorem Sequence.add_error {s : Sequence} {seg : Segment}
    (h : seg.name ∈ segNames s) : Sequence.add s seg = .error .nameError := by
  simp [Sequence.add, h]

theorem Sequence.add_not_mem {s : Sequence} {seg : Segment}
    (h : seg.name ∉ segNames s) :
    Sequence.add s seg = .ok { s with segments := s.segments ++ [seg] } := by
  simp [Sequence.add, h]

/-- C4 (amended): when the incoming segment's name collides with a name
already in the accumulator and that name is tracked by the occurrence counter
(as every name of the accumulator's first sequence is), the segment is
renamed with the deterministic suffix `_copy_from_merge_{n}` where `n` counts
the previous occurrences of that name INCLUDING the original (the counter
starts at 1 for the original and is incremented before the suffix
`count - 1` is taken), and added without an exception: merging two sequences
that each contain a segment named `x` yields one merged sequence whose second
copy is renamed `x_copy_from_merge_1` — not `x_copy_from_merge_0` as the
claim's example states, see `merge_rename_counterexample`. -/
theorem merge_rename_on_collision (s1 s2 : Sequence) (seg : Segment)
    (h2 : s2.segments = [seg])
    (hmem : seg.name ∈ segNames s1)
    (hnew : seg.name ++ "_copy_from_merge_1" ∉ segNames s1)
    (hpat : s2.repeat_patterns = []) :
    ∃ m, Sequence.merge [s1, s2] none true = .ok [m] ∧
      segNames m = segNames s1 ++ [seg.name ++ "_copy_from_merge_1"] := by
  have hsuffix : ("_copy_from_merge_" ++ toString (1 : Nat)) = "_copy_from_merge_1" := rfl
  have hadd : Sequence.add s1 { seg with name := seg.name ++ "_copy_from_merge_1" } =
      .ok { s1 with segments := s1.segments ++
          [{ seg with name := seg.name ++ "_copy_from_merge_1" }] } :=
    Sequence.add_not_mem hnew
  have hfold : mergeFoldSegs s1 (initOcc s1) s2.segments =
      .ok ({ s1 with segments := s1.segments ++
              [{ seg with name := seg.name ++ "_copy_from_merge_1" }] },
           alUpdate (initOcc s1) seg.name 2) := by
    rw [h2]
    unfold mergeFoldSegs
    rw [Sequence.add_error hmem]
    dsimp only
    simp only [initOcc]
    rw [alLookup_map_one hmem]
    dsimp only
    rw [hsuffix, hadd]
    rfl
  refine ⟨{ name := s1.name ++ ("+" ++ s2.name),
            segments := s1.segments ++
              [{ seg with name := seg.name ++ "_copy_from_merge_1" }],
            repeat_patterns := s1.repeat_patterns,
            pulsar_chan_id := s1.pulsar_chan_id }, ?_, ?_⟩
  · show mergeLoop none true [] s1 (initOcc s1) [s2] = _
    unfold mergeLoop
    rw [hfold]
    dsimp only [withinLimit]
    rw [if_pos rfl, if_pos rfl, if_pos rfl]
    rw [hpat]
    rfl
  · show List.map Segment.name (s1.segments ++ _) = _
    rw [List.map_append]
    rfl

/-- Concrete instance of `merge_rename_on_collision`: two sequences each
holding a segment named `x`. -/
theorem merge_rename_on_collision_witness :
    ∃ m, Sequence.merge [mkSeq "t1" ["x"], mkSeq "t2" ["x"]] none true = .ok [m] ∧
      segNames m = segNames (mkSeq "t1" ["x"]) ++ ["x" ++ "_copy_from_merge_1"] :=
  merge_rename_on_collision (mkSeq "t1" ["x"]) (mkSeq "t2" ["x"]) (mkSeg "x")
    rfl (by decide) (by decide) rfl

/-- Counterexample to C4 as stated: merging two sequences that each contain a
segment named `seg0` renames the second copy to `seg0_copy_from_merge_1`,
which differs from the `seg0_copy_from_merge_0` the claim predicts for a
first collision (zero prior collisions). -/
theorem merge_rename_counterexample :
    (Sequence.merge [mkSeq "s1" ["seg0"], mkSeq "s2" ["seg0"]] none true).map
        (List.map segNames) = .ok [["seg0", "seg0_copy_from_merge_1"]] ∧
      ("seg0_copy_from_merge_1" : String) ≠ "seg0_copy_from_merge_0" :=
  ⟨by decide, by decide⟩

/-! ## C5: repeat-pattern reconciliation during merge -/

theorem alLookup_nil {α : Type} (k : String) : alLookup ([] : List (String × α)) k = none :=
  rfl

theorem alLookup_cons {α : Type} (x : String × α) (l : List (String × α)) (k : String) :
    alLookup (x :: l) k = if x.1 = k then some x.2 else alLookup l k := by
  by_cases h : x.1 = k <;> simp [alLookup, List.find?, h]

theorem alUpdate_cons {α : Type} (x : String × α) (l : List (String × α))
    (k : String) (v : α) :
    alUpdate (x :: l) k v = (if x.1 = k then (k, v) else x) :: alUpdate l k v :=
  rfl

theorem alLookup_append_single_ne {α : Type} (l : List (String × α))
    (k k' : String) (v : α) (h : k' ≠ k) :
    alLookup (l ++ [(k, v)]) k' = alLookup l k' := by
  induction l with
  | nil =>
    rw [List.nil_append, alLookup_cons, if_neg (Ne.symm h)]
  | cons x rest ih =>
    rw [List.cons_append, alLookup_cons, alLookup_cons, ih]

theorem alLookup_update_ne {α : Type} (l : List (String × α))
    (k k' : String) (v : α) (h : k' ≠ k) :
    alLookup (alUpdate l k v) k' = alLookup l k' := by
  induction l with
  | nil => rfl
  | cons x rest ih =>
    rw [alUpdate_cons, alLookup_cons, alLookup_cons]
    by_cases hk : x.1 = k
    · rw [if_pos hk, if_neg (Ne.symm h), ih, if_neg (fun hq => h (hq.symm.trans hk))]
    · rw [if_neg hk, ih]

theorem alLookup_update_self {α : Type} (l : List (String × α))
    (k : String) (v w : α) (h : alLookup l k = some w) :
    alLookup (alUpdate l k v) k = some v := by
  induction l with
  | nil => exact absurd h (by simp [alLookup_nil])
  | cons x rest ih =>
    rw [alUpdate_cons, alLookup_cons]
    by_cases hk : x.1 = k
    · rw [if_pos hk]
      simp
    · rw [if_neg hk]
      rw [alLookup_cons, if_neg hk] at h
      have := ih h
      rw [this]
      split
      · next hx => exact absurd hx hk
      · rfl

theorem mergeRepeatPatterns_cons_merge
    {acc : List (String × (Nat × Nat))} {ch : String} {pat prev : Nat × Nat}
    (rest : List (String × (Nat × Nat)))
    (hprev : alLookup acc ch = some prev) (hq : prev.2 = pat.2) :
    mergeRepeatPatterns acc ((ch, pat) :: rest) =
      mergeRepeatPatterns (alUpdate acc ch (prev.1 + pat.1, prev.2)) rest := by
  conv_lhs => unfold mergeRepeatPatterns
  rw [hprev]
  simp [hq]

theorem mergeRepeatPatterns_cons_mismatch
    {acc : List (String × (Nat × Nat))} {ch : String} {pat prev : Nat × Nat}
    (rest : List (String × (Nat × Nat)))
    (hprev : alLookup acc ch = some prev) (hq : prev.2 ≠ pat.2) :
    mergeRepeatPatterns acc ((ch, pat) :: rest) = .error .notImplementedError := by
  conv_lhs => unfold mergeRepeatPatterns
  rw [hprev]
  simp [hq]

theorem mergeRepeatPatterns_cons_new
    {acc : List (String × (Nat × Nat))} {ch : String} {pat : Nat × Nat}
    (rest : List (String × (Nat × Nat)))
    (hnone : alLookup acc ch = none) :
    mergeRepeatPatterns acc ((ch, pat) :: rest) =
      mergeRepeatPatterns (acc ++ [(ch, pat)]) rest := by
  conv_lhs => unfold mergeRepeatPatterns
  rw [hnone]

theorem mergeRepeatPatterns_lookup_notin :
    ∀ (inc acc out : List (String × (Nat × Nat))) (k : String),
      k ∉ inc.map Prod.fst →
      mergeRepeatPatterns acc inc = .ok out →
      alLookup out k = alLookup acc k := by
  intro inc
  induction inc with
  | nil =>
    intro acc out k _ h
    unfold mergeRepeatPatterns at h
    cases h; rfl
  | cons chpat rest ih =>
    intro acc out k hk h
    obtain ⟨ch, pat⟩ := chpat
    have hkch : k ≠ ch := by
      intro hq; exact hk (by simp [hq])
    have hkrest : k ∉ rest.map Prod.fst := fun hq => hk (by simp [hq])
    cases hprev : alLookup acc ch with
    | some prev =>
      by_cases hq : prev.2 = pat.2
      · rw [mergeRepeatPatterns_cons_merge rest hprev hq] at h
        rw [ih _ out k hkrest h]
        exact alLookup_update_ne acc ch k _ hkch
      · rw [mergeRepeatPatterns_cons_mismatch rest hprev hq] at h
        exact absurd h (by simp)
    | none =>
      rw [mergeRepeatPatterns_cons_new rest hprev] at h
      rw [ih _ out k hkrest h]
      exact alLookup_append_single_ne acc ch k pat hkch

theorem mergeRepeatPatterns_spec :
    ∀ (inc : List (String × (Nat × Nat))) (acc : List (String × (Nat × Nat))),
      (inc.map Prod.fst).Nodup →
      (((∃ e, mergeRepeatPatterns acc inc = .error e) ↔
          ∃ ch p q, (ch, p) ∈ inc ∧ alLookup acc ch = some q ∧ q.2 ≠ p.2) ∧
       (∀ out, mergeRepeatPatterns acc inc = .ok out →
          ∀ ch p q, (ch, p) ∈ inc → alLookup acc ch = some q →
            alLookup out ch = some (q.1 + p.1, q.2))) := by
  intro inc
  induction inc with
  | nil =>
    intro acc _
    constructor
    · constructor
      · rintro ⟨e, he⟩
        exact absurd he (by simp [mergeRepeatPatterns])
      · rintro ⟨ch, p, q, hm, _, _⟩
        exact absurd hm (by simp)
    · intro out _ ch p q hm
      exact absurd hm (by simp)
  | cons chpat rest ih =>
    intro acc hnd
    obtain ⟨ch, pat⟩ := chpat
    rw [List.map_cons, List.nodup_cons] at hnd
    obtain ⟨hch, hndrest⟩ := hnd
    have htrans : ∀ (acc' : List (String × (Nat × Nat))),
        (∀ ch' : String, ch' ∈ rest.map Prod.fst →
          alLookup acc' ch' = alLookup acc ch') →
        ((∃ ch' p' q', (ch', p') ∈ rest ∧ alLookup acc' ch' = some q' ∧ q'.2 ≠ p'.2) ↔
         (∃ ch' p' q', (ch', p') ∈ rest ∧ alLookup acc ch' = some q' ∧ q'.2 ≠ p'.2)) := by
      intro acc' hsame
      constructor
      · rintro ⟨ch', p', q', hm, hl, hq⟩
        exact ⟨ch', p', q', hm,
          by rw [← hsame ch' (List.mem_map.2 ⟨(ch', p'), hm, rfl⟩)]; exact hl, hq⟩
      · rintro ⟨ch', p', q', hm, hl, hq⟩
        exact ⟨ch', p', q', hm,
          by rw [hsame ch' (List.mem_map.2 ⟨(ch', p'), hm, rfl⟩)]; exact hl, hq⟩
    constructor
    · -- error characterisation
      cases hprev : alLookup acc ch with
      | some prev =>
        by_cases hq : prev.2 = pat.2
        · rw [mergeRepeatPatterns_cons_merge rest hprev hq]
          have hsame : ∀ ch' : String, ch' ∈ rest.map Prod.fst →
              alLookup (alUpdate acc ch (prev.1 + pat.1, prev.2)) ch' =
                alLookup acc ch' := by
            intro ch' hm
            exact alLookup_update_ne acc ch ch' _ (by rintro rfl; exact hch hm)
          rw [(ih _ hndrest).1, htrans _ hsame]
          constructor
          · rintro ⟨ch', p', q', hm, hl, hne⟩
            exact ⟨ch', p', q', List.mem_cons_of_mem _ hm, hl, hne⟩
          · rintro ⟨ch', p', q', hm, hl, hne⟩
            rcases List.mem_cons.1 hm with heq | hm'
            · cases heq
              rw [hprev] at hl; cases hl
              exact absurd hq hne
            · exact ⟨ch', p', q', hm', hl, hne⟩
        · rw [mergeRepeatPatterns_cons_mismatch rest hprev hq]
          constructor
          · intro _
            exact ⟨ch, pat, prev, List.mem_cons_self _ _, hprev, hq⟩
          · intro _
            exact ⟨.notImplementedError, rfl⟩
      | none =>
        rw [mergeRepeatPatterns_cons_new rest hprev]
        have hsame : ∀ ch' : String, ch' ∈ rest.map Prod.fst →
            alLookup (acc ++ [(ch, pat)]) ch' = alLookup acc ch' := by
          intro ch' hm
          exact alLookup_append_single_ne acc ch ch' pat (by rintro rfl; exact hch hm)
        rw [(ih _ hndrest).1, htrans _ hsame]
        constructor
        · rintro ⟨ch', p', q', hm, hl, hne⟩
          exact ⟨ch', p', q', List.mem_cons_of_mem _ hm, hl, hne⟩
        · rintro ⟨ch', p', q', hm, hl, hne⟩
          rcases List.mem_cons.1 hm with heq | hm'
          · cases heq
            rw [hprev] at hl; cases hl
          · exact ⟨ch', p', q', hm', hl, hne⟩
    · -- success values
      intro out h ch' p' q' hm hl
      rcases List.mem_cons.1 hm with heq | hm'
      · cases heq
        by_cases hq2 : q'.2 = pat.2
        · rw [mergeRepeatPatterns_cons_merge rest hl hq2] at h
          have hout := mergeRepeatPatterns_lookup_notin rest _ out ch hch h
          rw [hout]
          have := alLookup_update_self acc ch (q'.1 + pat.1, q'.2) q' hl
          exact this
        · rw [mergeRepeatPatterns_cons_mismatch rest hl hq2] at h
          exact absurd h (by simp)
      · have hch' : ch' ≠ ch := by
          rintro rfl
          exact hch (List.mem_map.2 ⟨(ch', p'), hm', rfl⟩)
        cases hprev : alLookup acc ch with
        | some prev =>
          by_cases hq : prev.2 = pat.2
          · rw [mergeRepeatPatterns_cons_merge rest hprev hq] at h
            exact (ih _ hndrest).2 out h ch' p' q' hm'
              (by rw [alLookup_update_ne acc ch ch' _ hch']; exact hl)
          · rw [mergeRepeatPatterns_cons_mismatch rest hprev hq] at h
            exact absurd h (by simp)
        | none =>
          rw [mergeRepeatPatterns_cons_new rest hprev] at h
          exact (ih _ hndrest).2 out h ch' p' q' hm'
            (by rw [alLookup_append_single_ne acc ch ch' pat hch']; exact hl)

theorem mergeFoldSegs_disjoint :
    ∀ (segs : List Segment) (acc : Sequence) (occ : List (String × Nat)),
      (∀ sg ∈ segs, sg.name ∉ segNames acc) →
      (segs.map Segment.name).Nodup →
      mergeFoldSegs acc occ segs =
        .ok ({ acc with segments := acc.segments ++ segs }, occ) := by
  intro segs
  induction segs with
  | nil =>
    intro acc occ _ _
    show Except.ok (acc, occ) = _
    simp
  | cons seg rest ih =>
    intro acc occ hdisj hnd
    rw [List.map_cons, List.nodup_cons] at hnd
    obtain ⟨hseg, hndrest⟩ := hnd
    have hadd := Sequence.add_not_mem (hdisj seg (List.mem_cons_self _ _))
    have hrest : ∀ sg ∈ rest, sg.name ∉
        segNames { acc with segments := acc.segments ++ [seg] } := by
      intro sg hsg
      show sg.name ∉ (acc.segments ++ [seg]).map Segment.name
      rw [List.map_append]
      intro hmem
      rcases List.mem_append.1 hmem with h1 | h1
      · exact hdisj sg (List.mem_cons_of_mem _ hsg) h1
      · rcases List.mem_singleton.1 h1 with h2
        exact hseg (h2 ▸ List.mem_map.2 ⟨sg, hsg, rfl⟩)
    unfold mergeFoldSegs
    rw [hadd]
    dsimp only
    rw [ih _ occ hrest hndrest]
    simp [List.append_assoc]

/-- C5: with `merge_repeat_patterns` enabled and an incoming sequence whose
segment names do not collide (so the fold itself succeeds), merging two
sequences raises an error exactly when both define a repeat pattern for some
channel whose `inner_loop_size` (second component) differ; when they agree,
the merged pattern for a channel defined in both is
`(sum of counts, common inner_loop_size)`. -/
theorem merge_repeat_pattern_reconciliation (s1 s2 : Sequence)
    (hdisj : ∀ n ∈ segNames s2, n ∉ segNames s1)
    (hnd : (segNames s2).Nodup)
    (hkeys : (s2.repeat_patterns.map Prod.fst).Nodup) :
    ((∃ e, Sequence.merge [s1, s2] none true = .error e) ↔
      ∃ ch p q, (ch, p) ∈ s2.repeat_patterns ∧
        alLookup s1.repeat_patterns ch = some q ∧ q.2 ≠ p.2) ∧
    (∀ out, Sequence.merge [s1, s2] none true = .ok out →
      ∀ ch p q, (ch, p) ∈ s2.repeat_patterns →
        alLookup s1.repeat_patterns ch = some q →
        ∃ m, out = [m] ∧ alLookup m.repeat_patterns ch = some (q.1 + p.1, q.2)) := by
  have hdisj' : ∀ sg ∈ s2.segments, sg.name ∉ segNames s1 := by
    intro sg hsg
    exact hdisj sg.name (List.mem_map.2 ⟨sg, hsg, rfl⟩)
  have hfold := mergeFoldSegs_disjoint s2.segments s1 (initOcc s1) hdisj' hnd
  have hred : ∀ r, Sequence.merge [s1, s2] none true = r ↔
      (match mergeRepeatPatterns s1.repeat_patterns s2.repeat_patterns with
       | .error e => (.error e : Except MergeError (List Sequence))
       | .ok pats =>
         .ok [{ name := (s1.name ++ ("+" ++ s2.name)),
                segments := s1.segments ++ s2.segments,
                repeat_patterns := pats,
                pulsar_chan_id := s1.pulsar_chan_id }]) = r := by
    intro r
    constructor <;> intro h <;> rw [← h]
    · show _ = mergeLoop none true [] s1 (initOcc s1) [s2]
      unfold mergeLoop
      rw [hfold]
      dsimp only [withinLimit]
      rw [if_pos rfl, if_pos rfl, if_pos rfl]
      cases hpat : mergeRepeatPatterns s1.repeat_patterns s2.repeat_patterns with
      | error e => rfl
      | ok pats => rfl
    · show mergeLoop none true [] s1 (initOcc s1) [s2] = _
      unfold mergeLoop
      rw [hfold]
      dsimp only [withinLimit]
      rw [if_pos rfl, if_pos rfl, if_pos rfl]
      cases hpat : mergeRepeatPatterns s1.repeat_patterns s2.repeat_patterns with
      | error e => rfl
      | ok pats => rfl
  have hspec := mergeRepeatPatterns_spec s2.repeat_patterns s1.repeat_patterns hkeys
  constructor
  · constructor
    · rintro ⟨e, he⟩
      rw [hred (.error e)] at he
      refine hspec.1.1 ?_
      cases hpat : mergeRepeatPatterns s1.repeat_patterns s2.repeat_patterns with
      | error e' => exact ⟨e', rfl⟩
      | ok pats => rw [hpat] at he; exact absurd he (by simp)
    · intro hex
      obtain ⟨e, he⟩ := hspec.1.2 hex
      exact ⟨e, (hred (.error e)).2 (by rw [he])⟩
  · intro out hout ch p q hm hl
    rw [hred (.ok out)] at hout
    cases hpat : mergeRepeatPatterns s1.repeat_patterns s2.repeat_patterns with
    | error e => rw [hpat] at hout; exact absurd hout (by simp)
    | ok pats =>
      rw [hpat] at hout
      have hout' := hout
      simp only [Except.ok.injEq] at hout'
      refine ⟨_, hout'.symm, ?_⟩
      show alLookup pats ch = some (q.1 + p.1, q.2)
      exact hspec.2 pats hpat ch p q hm hl

/-- Two sequences with one repeat pattern each on the same channel, matching
`inner_loop_size`. -/
def seqC5a : Sequence := ⟨"A", [mkSeg "a"], [("chA", (2, 3))], fun c => c⟩

def seqC5b : Sequence := ⟨"B", [mkSeg "b"], [("chA", (5, 3))], fun c => c⟩

/-- Concrete instance of `merge_repeat_pattern_reconciliation`: the common
channel `chA` carries `(2,3)` and `(5,3)`; the merge succeeds and the merged
pattern is `(7, 3)`. -/
theorem merge_repeat_pattern_reconciliation_witness :
    ∃ out m, Sequence.merge [seqC5a, seqC5b] none true = .ok out ∧ out = [m] ∧
      alLookup m.repeat_patterns "chA" = some (7, 3) := by
  have h := merge_repeat_pattern_reconciliation seqC5a seqC5b
    (by decide) (by decide) (by decide)
  have hok : Sequence.merge [seqC5a, seqC5b] none true =
      .ok [{ name := "A" ++ ("+" ++ "B"),
             segments := [mkSeg "a", mkSeg "b"],
             repeat_patterns := [("chA", (7, 3))],
             pulsar_chan_id := fun c => c }] := by rfl
  obtain ⟨m, hm, hlook⟩ := h.2 _ hok "chA" (5, 3) (2, 3) (by decide) (by rfl)
  exact ⟨_, m, hok, hm, hlook⟩

/-! ## C2: compression-factor selection in `compress_2D_sweep` -/

theorem dedup_eq_single {l : List Nat} {a : Nat} (hne : l ≠ [])
    (hall : ∀ x ∈ l, x = a) : l.dedup = [a] := by
  induction l with
  | nil => exact absurd rfl hne
  | cons b t ih =>
    have hb : b = a := hall b (by simp)
    cases t with
    | nil => rw [List.dedup_cons_of_not_mem (by simp), List.dedup_nil, hb]
    | cons c t' =>
      have hc : c = a := hall c (by simp)
      rw [List.dedup_cons_of_mem (by rw [hb, ← hc]; exact List.mem_cons_self _ _)]
      exact ih (by simp) (fun x hx => hall x (List.mem_cons_of_mem _ hx))

theorem pickFactor_spec (n_seg : Nat) (limit : Option Nat) :
    ∀ l : List Nat, l.Pairwise (· > ·) →
      (∃ f ∈ l, withinLimit limit (f * n_seg) = true) →
      (pickFactor n_seg limit l ∈ l ∧
       withinLimit limit (pickFactor n_seg limit l * n_seg) = true ∧
       ∀ d ∈ l, withinLimit limit (d * n_seg) = true →
         d ≤ pickFactor n_seg limit l) := by
  intro l
  induction l with
  | nil =>
    rintro _ ⟨f, hf, _⟩
    exact absurd hf (by simp)
  | cons f t ih =>
    intro hpw hex
    cases t with
    | nil =>
      obtain ⟨g, hg, hgq⟩ := hex
      rw [List.mem_singleton.1 hg] at hgq
      exact ⟨by simp [pickFactor], hgq,
        fun d hd _ => le_of_eq (List.mem_singleton.1 hd)⟩
    | cons g t' =>
      rw [List.pairwise_cons] at hpw
      obtain ⟨hf_gt, hpw'⟩ := hpw
      by_cases hq : withinLimit limit (f * n_seg) = true
      · have hpick : pickFactor n_seg limit (f :: g :: t') = f := by
          unfold pickFactor; rw [if_pos hq]
        rw [hpick]
        refine ⟨by simp, hq, fun d hd _ => ?_⟩
        rcases List.mem_cons.1 hd with rfl | hd'
        · exact le_refl d
        · exact le_of_lt (hf_gt d hd')
      · have hpick : pickFactor n_seg limit (f :: g :: t') =
            pickFactor n_seg limit (g :: t') := by
          conv_lhs => unfold pickFactor
          rw [if_neg hq]
        have hex' : ∃ x ∈ g :: t', withinLimit limit (x * n_seg) = true := by
          obtain ⟨x, hx, hxq⟩ := hex
          rcases List.mem_cons.1 hx with rfl | hx'
          · exact absurd hxq hq
          · exact ⟨x, hx', hxq⟩
        obtain ⟨hmem, hwl, hmax⟩ := ih hpw' hex'
        rw [hpick]
        refine ⟨List.mem_cons_of_mem _ hmem, hwl, fun d hd hdq => ?_⟩
        rcases List.mem_cons.1 hd with rfl | hd'
        · exact absurd hdq hq
        · exact hmax d hd' hdq

theorem mem_factors {n d : Nat} (hn : 0 < n) : d ∈ factors n ↔ 0 < d ∧ d ∣ n := by
  unfold factors
  rw [List.mem_filter, List.mem_range]
  constructor
  · rintro ⟨_, h⟩
    simpa using h
  · rintro ⟨hd, hdvd⟩
    exact ⟨Nat.lt_succ_of_le (Nat.le_of_dvd hn hdvd), by simp [hd, hdvd]⟩

theorem factors_reverse_sorted (n : Nat) : ((factors n).reverse).Pairwise (· > ·) := by
  refine List.pairwise_reverse.2 (List.Pairwise.filter _ ?_)
  exact (List.pairwise_lt_range (n + 1)).imp (fun h => h)

/-- Twelve sequences of five segments each (all 60 segment names distinct). -/
def twelveSeqs : List Sequence :=
  (List.range 12).map (fun i =>
    mkSeq ("seq" ++ toString i)
      ((List.range 5).map (fun j => "q" ++ toString i ++ "s" ++ toString j)))

/-- C2: `compress_2D_sweep` picks as compression factor the largest integer
divisor `f` of the number of input sequences with `f * n_seg <= segment_limit`
(whenever some divisor qualifies), and then behaves exactly as `merge` with
effective limit `f * n_seg`; in particular, for 12 sequences of 5 segments
each and `segment_limit = 20` it chooses `f = 4` and returns 3 compressed
sequences. -/
theorem compress_2D_sweep_factor (sequences : List Sequence) (limit : Nat)
    (n_seg : Nat) (mrp : Bool)
    (hne : sequences ≠ [])
    (hsame : ∀ s ∈ sequences, s.n_segments = n_seg)
    (hfeas : ∃ d, d ∣ sequences.length ∧ 0 < d ∧ d * n_seg ≤ limit) :
    (pickFactor n_seg (some limit) ((factors sequences.length).reverse) ∣
        sequences.length ∧
     0 < pickFactor n_seg (some limit) ((factors sequences.length).reverse) ∧
     pickFactor n_seg (some limit) ((factors sequences.length).reverse) * n_seg ≤
        limit ∧
     (∀ d, d ∣ sequences.length → 0 < d → d * n_seg ≤ limit →
        d ≤ pickFactor n_seg (some limit) ((factors sequences.length).reverse))) ∧
    Sequence.compress_2D_sweep sequences (some limit) mrp =
      (match Sequence.merge sequences
          (some (pickFactor n_seg (some limit)
            ((factors sequences.length).reverse) * n_seg)) mrp with
       | .error e => .error e
       | .ok compressed =>
         match compressed with
         | [] => .error .indexError
         | c0 :: _ => .ok (compressed, List.range c0.n_acq_elements,
                           List.range compressed.length,
                           pickFactor n_seg (some limit)
                             ((factors sequences.length).reverse))) ∧
    (Sequence.compress_2D_sweep twelveSeqs (some 20) true).map
        (fun r => (r.1.length, r.2.2.2)) = .ok (3, 4) := by
  have hn : 0 < sequences.length := List.length_pos.2 hne
  have hex : ∃ f ∈ (factors sequences.length).reverse,
      withinLimit (some limit) (f * n_seg) = true := by
    obtain ⟨d, hdvd, hd0, hdle⟩ := hfeas
    exact ⟨d, List.mem_reverse.2 ((mem_factors hn).2 ⟨hd0, hdvd⟩),
      by simpa [withinLimit] using hdle⟩
  obtain ⟨hmem, hwl, hmax⟩ :=
    pickFactor_spec n_seg (some limit) _ (factors_reverse_sorted _) hex
  have hmemf := (mem_factors hn).1 (List.mem_reverse.1 hmem)
  refine ⟨⟨hmemf.2, hmemf.1, by simpa [withinLimit] using hwl, ?_⟩, ?_, ?_⟩
  · intro d hdvd hd0 hdle
    exact hmax d (List.mem_reverse.2 ((mem_factors hn).2 ⟨hd0, hdvd⟩))
      (by simpa [withinLimit] using hdle)
  · cases sequences with
    | nil => exact absurd rfl hne
    | cons s0 rest =>
      have hall : ∀ x ∈ (s0 :: rest).map Sequence.n_segments, x = n_seg := by
        intro x hx
        obtain ⟨s, hs, hsx⟩ := List.mem_map.1 hx
        rw [← hsx]; exact hsame s hs
      have hded : ((s0 :: rest).map Sequence.n_segments).dedup = [n_seg] :=
        dedup_eq_single (by simp) hall
      have hcond : ¬ (((s0 :: rest).map Sequence.n_segments).dedup.length ≠ 1) := by
        rw [hded]; simp
      show Sequence.compress_2D_sweep (s0 :: rest) (some limit) mrp = _
      unfold Sequence.compress_2D_sweep
      dsimp only
      rw [if_neg hcond]
      have hs0 : s0.n_segments = n_seg := hsame s0 (by simp)
      rw [hs0]
  · decide

/-- Concrete instance of `compress_2D_sweep_factor`: for 12 sequences of 5
segments each with `segment_limit = 20`, the factor is 4 and 3 compressed
sequences are returned. -/
theorem compress_2D_sweep_factor_witness :
    (Sequence.compress_2D_sweep twelveSeqs (some 20) true).map
        (fun r => (r.1.length, r.2.2.2)) = .ok (3, 4) :=
  (compress_2D_sweep_factor twelveSeqs 20 5 true (List.length_pos.1 (by decide))
    (by decide) ⟨4, by decide, by decide, by decide⟩).2.2

/-! ## C1: waveform-table deduplication in `generate_waveforms_sequences` -/

/-- The running key set produced by a sequence of insert-if-absent steps. -/
def dedupAppend (ks : List Nat) (hs : List Nat) : List Nat :=
  hs.foldl (fun ks h => if h ∈ ks then ks else ks ++ [h]) ks

theorem dedupAppend_nil (ks : List Nat) : dedupAppend ks [] = ks := rfl

theorem dedupAppend_cons (ks : List Nat) (h : Nat) (hs : List Nat) :
    dedupAppend ks (h :: hs) = dedupAppend (if h ∈ ks then ks else ks ++ [h]) hs :=
  rfl

theorem dedupAppend_append (ks : List Nat) (a b : List Nat) :
    dedupAppend ks (a ++ b) = dedupAppend (dedupAppend ks a) b :=
  List.foldl_append ..

theorem insertWaveform_keys (wfs : WfTable) (h : Nat) (wf : List ℝ) :
    (insertWaveform wfs h wf).map Prod.fst =
      if h ∈ wfs.map Prod.fst then wfs.map Prod.fst else wfs.map Prod.fst ++ [h] := by
  unfold insertWaveform
  by_cases hmem : h ∈ wfs.map Prod.fst
  · rw [if_pos hmem, if_pos]
    rw [List.any_eq_true]
    obtain ⟨kv, hkv, hfst⟩ := List.mem_map.1 hmem
    exact ⟨kv, hkv, by simp [hfst]⟩
  · rw [if_neg hmem, if_neg, List.map_append]
    rfl
    rw [List.any_eq_true]
    rintro ⟨kv, hkv, hfst⟩
    exact hmem (List.mem_map.2 ⟨kv, hkv, by simpa using hfst⟩)

theorem genCh_fold_keys (s : Sequence) (seg : Segment) (awg elname cw : String) :
    ∀ (chs : List String) (wfs : WfTable) (aux : List (String × Nat)),
      ((chs.foldl (genCh s seg awg elname cw) (wfs, aux)).1).map Prod.fst =
        dedupAppend (wfs.map Prod.fst)
          (chs.map (fun ch => seg.calculate_hash elname cw ch)) := by
  intro chs
  induction chs with
  | nil => intro wfs aux; rfl
  | cons ch rest ih =>
    intro wfs aux
    rw [List.foldl_cons, List.map_cons, dedupAppend_cons]
    show ((rest.foldl (genCh s seg awg elname cw)
      (insertWaveform wfs (seg.calculate_hash elname cw ch)
        (seg.waveform awg elname cw ch),
       dictInsert aux (s.pulsar_chan_id ch) (seg.calculate_hash elname cw ch))).1).map
        Prod.fst = _
    rw [ih, insertWaveform_keys]

theorem genCw_fold_keys (s : Sequence) (seg : Segment) (awg elname : String) :
    ∀ (cws : List String) (wfs : WfTable)
      (aux : List (String × List (String × Nat))),
      ((cws.foldl (genCw s seg awg elname) (wfs, aux)).1).map Prod.fst =
        dedupAppend (wfs.map Prod.fst)
          (cws.flatMap (fun cw => (seg.element_channels elname awg).map
            (fun ch => seg.calculate_hash elname cw ch))) := by
  intro cws
  induction cws with
  | nil => intro wfs aux; rfl
  | cons cw rest ih =>
    intro wfs aux
    rw [List.foldl_cons, List.flatMap_cons, dedupAppend_append]
    show ((rest.foldl (genCw s seg awg elname)
      (((seg.element_channels elname awg).foldl (genCh s seg awg elname cw)
          (wfs, [])).1,
       dictInsert aux cw ((seg.element_channels elname awg).foldl
          (genCh s seg awg elname cw) (wfs, [])).2)).1).map Prod.fst = _
    rw [ih, genCh_fold_keys]

theorem genEl_fold_keys (s : Sequence) (seg : Segment) (awg : String) :
    ∀ (els : List String) (wfs : WfTable)
      (aux : List (String × Option ElementProg)),
      ((els.foldl (genEl s seg awg) (wfs, aux)).1).map Prod.fst =
        dedupAppend (wfs.map Prod.fst)
          (els.flatMap (fun elname =>
            (seg.element_codewords elname awg).flatMap (fun cw =>
              (seg.element_channels elname awg).map
                (fun ch => seg.calculate_hash elname cw ch)))) := by
  intro els
  induction els with
  | nil => intro wfs aux; rfl
  | cons elname rest ih =>
    intro wfs aux
    rw [List.foldl_cons, List.flatMap_cons, dedupAppend_append]
    show ((rest.foldl (genEl s seg awg)
      (((seg.element_codewords elname awg).foldl (genCw s seg awg elname)
          (wfs, [])).1, _)).1).map Prod.fst = _
    rw [ih, genCw_fold_keys]

theorem genSeg_fold_keys (s : Sequence) (awg : String) :
    ∀ (segs : List Segment) (wfs : WfTable)
      (aux : List (String × Option ElementProg)),
      ((segs.foldl (genSeg s awg) (wfs, aux)).1).map Prod.fst =
        dedupAppend (wfs.map Prod.fst)
          (segs.flatMap (fun seg => segElementHashes seg awg)) := by
  intro segs
  induction segs with
  | nil => intro wfs aux; rfl
  | cons seg rest ih =>
    intro wfs aux
    rw [List.foldl_cons, List.flatMap_cons, dedupAppend_append]
    show ((rest.foldl (genSeg s awg)
      ((seg.elements_on_awg awg).foldl (genEl s seg awg)
        (wfs, dictInsert aux seg.name none))).1).map Prod.fst = _
    rcases hsplit : (seg.elements_on_awg awg).foldl (genEl s seg awg)
      (wfs, dictInsert aux seg.name none) with ⟨wfs', aux'⟩
    rw [ih wfs' aux']
    have := genEl_fold_keys s seg awg (seg.elements_on_awg awg) wfs
      (dictInsert aux seg.name none)
    rw [hsplit] at this
    rw [this]
    rfl

theorem genAwg_fold_keys (s : Sequence) :
    ∀ (awgs : List String) (wfs : WfTable)
      (aux : List (String × List (String × Option ElementProg))),
      ((awgs.foldl (genAwg s) (wfs, aux)).1).map Prod.fst =
        dedupAppend (wfs.map Prod.fst)
          (awgs.flatMap (fun awg =>
            s.segments.flatMap (fun seg => segElementHashes seg awg))) := by
  intro awgs
  induction awgs with
  | nil => intro wfs aux; rfl
  | cons awg rest ih =>
    intro wfs aux
    rw [List.foldl_cons, List.flatMap_cons, dedupAppend_append]
    show ((rest.foldl (genAwg s)
      ((s.segments.foldl (genSeg s awg) (wfs, [])).1,
       dictInsert aux awg (s.segments.foldl (genSeg s awg) (wfs, [])).2)).1).map
        Prod.fst = _
    rw [ih, genSeg_fold_keys]

theorem generate_keys (s : Sequence) (awgs : List String) :
    ((s.generate_waveforms_sequences awgs).1).map Prod.fst =
      dedupAppend [] (allHashes s awgs) := by
  unfold Sequence.generate_waveforms_sequences allHashes
  exact genAwg_fold_keys s awgs [] []

theorem dedupAppend_nodup :
    ∀ (hs ks : List Nat), ks.Nodup → (dedupAppend ks hs).Nodup := by
  intro hs
  induction hs with
  | nil => intro ks h; exact h
  | cons x rest ih =>
    intro ks h
    rw [dedupAppend_cons]
    by_cases hx : x ∈ ks
    · rw [if_pos hx]; exact ih ks h
    · rw [if_neg hx]
      refine ih _ ?_
      simp [List.nodup_append, h, hx]

theorem mem_dedupAppend :
    ∀ (hs ks : List Nat) (x : Nat),
      x ∈ dedupAppend ks hs ↔ x ∈ ks ∨ x ∈ hs := by
  intro hs
  induction hs with
  | nil => intro ks x; simp [dedupAppend_nil]
  | cons y rest ih =>
    intro ks x
    rw [dedupAppend_cons]
    by_cases hy : y ∈ ks
    · rw [if_pos hy, ih]
      constructor
      · rintro (h | h)
        · exact Or.inl h
        · exact Or.inr (List.mem_cons_of_mem _ h)
      · rintro (h | h)
        · exact Or.inl h
        · rcases List.mem_cons.1 h with rfl | h'
          · exact Or.inl hy
          · exact Or.inr h'
    · rw [if_neg hy, ih]
      constructor
      · rintro (h | h)
        · rcases List.mem_append.1 h with h' | h'
          · exact Or.inl h'
          · exact Or.inr (by simpa using Or.inl (List.mem_singleton.1 h'))
        · exact Or.inr (List.mem_cons_of_mem _ h)
      · rintro (h | h)
        · exact Or.inl (List.mem_append.2 (Or.inl h))
        · rcases List.mem_cons.1 h with rfl | h'
          · exact Or.inl (List.mem_append.2 (Or.inr (by simp)))
          · exact Or.inr h'

theorem dedupAppend_nil_length (hs : List Nat) :
    (dedupAppend [] hs).length = hs.dedup.length := by
  have h1 : (dedupAppend [] hs).Nodup := dedupAppend_nodup hs [] (by simp)
  have h2 : hs.dedup.Nodup := hs.nodup_dedup
  have h3 : ∀ x, x ∈ dedupAppend [] hs ↔ x ∈ hs.dedup := by
    intro x
    rw [mem_dedupAppend, List.mem_dedup]
    simp
  exact List.Perm.length_eq ((List.perm_ext_iff_of_nodup h1 h2).2 h3)

/-- C1: the waveform table returned by `generate_waveforms_sequences` has
pairwise-distinct hash keys, and its size equals the number of distinct
hashes over all (awg, segment, element, codeword, channel) references — a
waveform is evaluated and inserted only when its hash is not already present,
no matter how many elements or segments reference the same hash. -/
theorem generate_waveforms_dedup (s : Sequence) (awgs : List String) :
    (((s.generate_waveforms_sequences awgs).1).map Prod.fst).Nodup ∧
    ((s.generate_waveforms_sequences awgs).1).length =
      (allHashes s awgs).dedup.length := by
  constructor
  · rw [generate_keys]
    exact dedupAppend_nodup _ [] (by simp)
  · have hlen : ((s.generate_waveforms_sequences awgs).1).length =
        (((s.generate_waveforms_sequences awgs).1).map Prod.fst).length :=
      (List.length_map _ _).symm
    rw [hlen, generate_keys, dedupAppend_nil_length]

/-! ## C7: IQ-modulated block pulse window and values -/

theorem firstIdxGe_head (l : List ℝ) (hne : l ≠ []) :
    firstIdxGe l (l.headD 0) = 0 := by
  cases l with
  | nil => exact absurd rfl hne
  | cons a t =>
    unfold firstIdxGe
    rw [List.findIdx_cons]
    simp

theorem pairwise_lt_getLast?_max :
    ∀ (l : List Nat), l.Pairwise (· < ·) → ∀ m, l.getLast? = some m →
      ∀ x ∈ l, x ≤ m := by
  intro l
  induction l with
  | nil => intro _ m hm; simp at hm
  | cons a t ih =>
    intro hpw m hm x hx
    cases t with
    | nil =>
      simp at hm
      rcases List.mem_singleton.1 hx with rfl
      rw [hm]
    | cons b t' =>
      rw [List.getLast?_cons_cons] at hm
      rw [List.pairwise_cons] at hpw
      obtain ⟨ha, hpw'⟩ := hpw
      rcases List.mem_cons.1 hx with rfl | hx'
      · have hmmem : m ∈ b :: t' := List.mem_of_mem_getLast? (by rw [hm]; rfl)
        exact le_of_lt (ha m hmmem)
      · exact ih hpw' m hm x hx'

theorem lastIdxLe_sorted (l : List ℝ) (c : ℝ) (hne : l ≠ [])
    (hsort : ∀ i j, i < l.length → j < l.length → i ≤ j →
      l.getD i 0 ≤ l.getD j 0)
    (h0 : l.getD 0 0 ≤ c) :
    ∃ m, lastIdxLe l c = some m ∧ m < l.length ∧
      ∀ i, i < l.length → (i < m + 1 ↔ l.getD i 0 ≤ c) := by
  unfold lastIdxLe
  set filt := (List.range l.length).filter (fun i => decide (l.getD i 0 ≤ c))
    with hfilt
  have hmem_filt : ∀ i, i ∈ filt ↔ i < l.length ∧ l.getD i 0 ≤ c := by
    intro i
    rw [hfilt, List.mem_filter, List.mem_range]
    simp
  have h0f : (0 : Nat) ∈ filt := (hmem_filt 0).2 ⟨List.length_pos.2 hne, h0⟩
  obtain ⟨m, hm⟩ : ∃ m, filt.getLast? = some m := by
    cases hf : filt with
    | nil => rw [hf] at h0f; simp at h0f
    | cons x t => exact ⟨(x :: t).getLast (by simp), List.getLast?_eq_getLast _ _⟩
  have hpw : filt.Pairwise (· < ·) :=
    List.Pairwise.filter _ ((List.pairwise_lt_range _).imp (fun h => h))
  have hmax := pairwise_lt_getLast?_max filt hpw m hm
  have hmf := (hmem_filt m).1 (List.mem_of_mem_getLast? (by rw [hm]; rfl))
  refine ⟨m, hm, hmf.1, ?_⟩
  intro i hi
  constructor
  · intro him
    exact le_trans (hsort i m hi hmf.1 (Nat.lt_succ_iff.1 him)) hmf.2
  · intro hic
    exact Nat.lt_succ_of_le (hmax i ((hmem_filt i).2 ⟨hi, hic⟩))

/-- C7: for an IQ-modulated block pulse (`phaselock` on, distinct I/Q
channels) sampled on a nondecreasing time axis, the I-channel waveform equals
`A·cos(2π(f·t + phase/360))` at every sample inside `[start, start+length]`
(where `start = tvals[0]`) and is zero at every sample outside, and the
Q-channel waveform likewise with `sin`. -/
theorem MW_IQmod_window (p : MW_IQmod_pulse) (tvals : List ℝ)
    (hne : tvals ≠ [])
    (hlen : 0 ≤ p.length)
    (hlock : p.phaselock = true)
    (hIQ : p.I_channel ≠ p.Q_channel)
    (hsort : ∀ i j, i < tvals.length → j < tvals.length → i ≤ j →
      tvals.getD i 0 ≤ tvals.getD j 0) :
    p.chan_wf p.I_channel tvals = some (tvals.map (fun t =>
      if t ≤ tvals.headD 0 + p.length then
        p.amplitude * Real.cos (2 * Real.pi * (p.mod_frequency * t + p.phase / 360))
      else 0)) ∧
    p.chan_wf p.Q_channel tvals = some (tvals.map (fun t =>
      if t ≤ tvals.headD 0 + p.length then
        p.amplitude * Real.sin (2 * Real.pi * (p.mod_frequency * t + p.phase / 360))
      else 0)) := by
  have h0 : tvals.getD 0 0 ≤ tvals.headD 0 + p.length := by
    cases tvals with
    | nil => exact absurd rfl hne
    | cons a t => simpa using hlen
  obtain ⟨m, hm, hmlt, hiff⟩ :=
    lastIdxLe_sorted tvals (tvals.headD 0 + p.length) hne hsort h0
  have hidx0 := firstIdxGe_head tvals hne
  constructor
  · unfold MW_IQmod_pulse.chan_wf
    rw [hm]
    dsimp only
    rw [hidx0, hlock]
    simp only [if_true]
    congr 1
    refine List.ext_getElem (by simp) ?_
    intro i hi1 hi2
    rw [List.length_map, List.length_range] at hi1
    rw [List.getElem_map, List.getElem_range, List.getElem_map]
    have h2 : ¬(p.I_channel = p.Q_channel ∧ 0 ≤ i ∧ i < m + 1) :=
      fun hc => hIQ hc.1
    rw [if_neg h2, add_zero]
    have hcond : (True ∧ 0 ≤ i ∧ i < m + 1) ↔
        (tvals[i] ≤ tvals.headD 0 + p.length) := by
      rw [← List.getD_eq_getElem tvals 0 hi1]
      simp [Nat.zero_le, hiff i hi1]
    rw [if_congr hcond rfl rfl, List.getD_eq_getElem tvals 0 hi1]
  · unfold MW_IQmod_pulse.chan_wf
    rw [hm]
    dsimp only
    rw [hidx0, hlock]
    simp only [if_true]
    congr 1
    refine List.ext_getElem (by simp) ?_
    intro i hi1 hi2
    rw [List.length_map, List.length_range] at hi1
    rw [List.getElem_map, List.getElem_range, List.getElem_map]
    have h2 : ¬(p.Q_channel = p.I_channel ∧ 0 ≤ i ∧ i < m + 1) :=
      fun hc => hIQ hc.1.symm
    rw [if_neg h2, zero_add]
    have hcond : (True ∧ 0 ≤ i ∧ i < m + 1) ↔
        (tvals[i] ≤ tvals.headD 0 + p.length) := by
      rw [← List.getD_eq_getElem tvals 0 hi1]
      simp [Nat.zero_le, hiff i hi1]
    rw [if_congr hcond rfl rfl, List.getD_eq_getElem tvals 0 hi1]

/-- The concrete C7 pulse: amplitude 0.1 V, length 1 µs, modulation 1 MHz,
phase 0, phaselock on. -/
noncomputable def pC7 : MW_IQmod_pulse :=
  ⟨"I", "Q", 1000000, 1 / 10, 1 / 1000000, 0, true⟩

/-- Concrete instance of `MW_IQmod_window`: at `t = 0` the I channel reads
`0.1 * cos 0 = 0.1` and the Q channel `0.1 * sin 0 = 0`. -/
theorem MW_IQmod_window_witness :
    (MW_IQmod_pulse.chan_wf pC7 "I" [0]).map (fun l => l.headD 0) =
      some (1 / 10) ∧
    (MW_IQmod_pulse.chan_wf pC7 "Q" [0]).map (fun l => l.headD 0) = some 0 := by
  have hsort : ∀ i j, i < ([0] : List ℝ).length → j < ([0] : List ℝ).length →
      i ≤ j → ([0] : List ℝ).getD i 0 ≤ ([0] : List ℝ).getD j 0 := by
    intro i j hi hj _
    rw [Nat.lt_one_iff.1 hi, Nat.lt_one_iff.1 hj]
  have h := MW_IQmod_window pC7 [0] (by simp) (by norm_num [pC7]) rfl
    (by decide) hsort
  constructor
  · rw [show MW_IQmod_pulse.chan_wf pC7 "I" [0] =
        MW_IQmod_pulse.chan_wf pC7 pC7.I_channel [0] from rfl, h.1]
    norm_num [pC7, Real.cos_zero]
  · rw [show MW_IQmod_pulse.chan_wf pC7 "Q" [0] =
        MW_IQmod_pulse.chan_wf pC7 pC7.Q_channel [0] from rfl, h.2]
    norm_num [pC7, Real.sin_zero]

/-! ## C8: DRAG pulse with `motzoi = 0` -/

theorem lastIdxLe_full (l : List ℝ) (c : ℝ)
    (h : ∀ i, i < l.length → l.getD i 0 ≤ c) (hne : l ≠ []) :
    lastIdxLe l c = some (l.length - 1) := by
  unfold lastIdxLe
  have hfilter : (List.range l.length).filter (fun i => decide (l.getD i 0 ≤ c)) =
      List.range l.length := by
    apply List.filter_eq_self.2
    intro i hi
    exact decide_eq_true (h i (List.mem_range.1 hi))
  rw [hfilter]
  cases l with
  | nil => exact absurd rfl hne
  | cons a t =>
    show (List.range (t.length + 1)).getLast? = some (t.length + 1 - 1)
    rw [List.range_succ, List.getLast?_concat]
    simp

theorem getD_replicate_zero : ∀ (n i : Nat), (List.replicate n (0:ℝ)).getD i 0 = 0 := by
  intro n
  induction n with
  | zero => intro i; rfl
  | succ k ih =>
    intro i
    cases i with
    | zero => rfl
    | succ j => exact ih j

theorem getLastD_map_zero (l : List ℝ) :
    (l.map (fun _ => (0:ℝ))).getLastD 0 = 0 := by
  induction l with
  | nil => rfl
  | cons a t ih =>
    rw [List.map_cons, List.getLastD_cons]
    exact ih

theorem subtractOffset_map_zero (l : List ℝ) :
    subtractOffset (l.map (fun _ => (0:ℝ))) = List.replicate l.length 0 := by
  unfold subtractOffset
  have h1 : (l.map (fun _ => (0:ℝ))).headD 0 = 0 := by
    cases l <;> simp
  rw [h1, getLastD_map_zero, List.map_map]
  have hcomp : ((fun v : ℝ => v - (0 + 0) / 2) ∘ (fun _ : ℝ => (0:ℝ))) =
      (fun _ : ℝ => (0:ℝ)) := by
    funext x
    simp
  rw [hcomp, List.map_const']

theorem apply_modulation_zero_freq (p : SSB_DRAG_pulse) (g d tv : List ℝ)
    (hf : p.mod_frequency = 0) (hph : p.phase = 0)
    (hd : ∀ i, d.getD i 0 = 0) :
    (p.apply_modulation g d tv).1 =
      (List.range tv.length).map (fun i => g.getD i 0) := by
  unfold SSB_DRAG_pulse.apply_modulation
  dsimp only
  refine List.ext_getElem (by simp) ?_
  intro i hi1 hi2
  rw [List.length_map, List.length_range] at hi1
  rw [List.getElem_map, List.getElem_range, List.getElem_map, List.getElem_range]
  rw [hd i]
  simp [hf, hph]

/-- C8: with `motzoi = 0` the Q envelope (derivative-of-Gaussian component,
after DC-offset subtraction) is all-zero at every sample before modulation;
consequently — with `mod_frequency = 0` (and the other modulation parameters
at their defaults `phase = 0`, `phaselock = True`, the window covering all
samples, distinct I/Q channels) — the I-channel output is exactly the
DC-corrected Gaussian envelope: the pulse reduces to a pure Gaussian on the I
channel. -/
theorem SSB_DRAG_motzoi_zero (p : SSB_DRAG_pulse) (tvals : List ℝ)
    (hm : p.motzoi = 0) :
    subtractOffset (derivGaussEnv p tvals) = List.replicate tvals.length 0 ∧
    (p.mod_frequency = 0 → p.phase = 0 → p.phaselock = true → tvals ≠ [] →
      (∀ t ∈ tvals, t ≤ tvals.headD 0 + p.length) →
      p.I_channel ≠ p.Q_channel →
      p.chan_wf p.I_channel tvals = some (subtractOffset (gaussEnv p tvals))) := by
  have hderiv : derivGaussEnv p tvals = tvals.map (fun _ => (0:ℝ)) := by
    unfold derivGaussEnv
    rw [hm]
    refine List.map_congr_left ?_
    intro t _
    simp
  have hpart1 : subtractOffset (derivGaussEnv p tvals) =
      List.replicate tvals.length 0 := by
    rw [hderiv, subtractOffset_map_zero]
  refine ⟨hpart1, ?_⟩
  intro hf hph hlock hne hwin hIQ
  have hpos : 0 < tvals.length := List.length_pos.2 hne
  have hall : ∀ i, i < tvals.length →
      tvals.getD i 0 ≤ tvals.headD 0 + p.length := by
    intro i hi
    rw [List.getD_eq_getElem tvals 0 hi]
    exact hwin _ (List.getElem_mem hi)
  have hlast := lastIdxLe_full tvals (tvals.headD 0 + p.length) hall hne
  have hidx0 := firstIdxGe_head tvals hne
  have harith : tvals.length - 1 + 1 - 0 = tvals.length := by omega
  have harith' : tvals.length - 1 + 1 = tvals.length := by omega
  have hd : ∀ i, (subtractOffset (derivGaussEnv p tvals)).getD i 0 = 0 := by
    intro i
    rw [hpart1]
    exact getD_replicate_zero _ _
  unfold SSB_DRAG_pulse.chan_wf
  rw [hlast]
  dsimp only
  rw [hidx0, hlock]
  simp only [if_true]
  have hguard : ¬((p.I_channel = p.I_channel ∨ p.I_channel = p.Q_channel) ∧
      tvals.length - 1 + 1 - 0 ≠ tvals.length) := by
    rintro ⟨_, hc⟩
    exact hc harith
  rw [if_neg (by simpa using hguard)]
  rw [List.drop_zero, harith, List.take_length]
  rw [apply_modulation_zero_freq p _ _ tvals hf hph hd]
  congr 1
  refine List.ext_getElem (by simp [subtractOffset, gaussEnv]) ?_
  intro i hi1 hi2
  rw [List.length_map, List.length_range] at hi1
  rw [List.getElem_map, List.getElem_range]
  have h2 : ¬(p.I_channel = p.Q_channel ∧ 0 ≤ i ∧ i < tvals.length - 1 + 1) :=
    fun hc => hIQ hc.1
  rw [if_neg h2, add_zero]
  have hcond : True ∧ 0 ≤ i ∧ i < tvals.length - 1 + 1 := by
    refine ⟨trivial, Nat.zero_le _, ?_⟩
    rw [harith']
    exact hi1
  rw [if_pos hcond, Nat.sub_zero]
  rw [List.getD_eq_getElem _ _ (by rw [List.length_map, List.length_range]; exact hi1)]
  rw [List.getElem_map, List.getElem_range]
  rw [List.getD_eq_getElem _ _ (by simp [subtractOffset, gaussEnv]; exact hi1)]

/-- The concrete C8 pulse: `motzoi = 0`, `mod_frequency = 0`, `sigma = 1`,
`nr_sigma = 4` (length 4), remaining modulation parameters at their
defaults. -/
noncomputable def pC8 : SSB_DRAG_pulse :=
  ⟨"I", "Q", 1 / 10, 1, 4, 0, 0, 0, true, 1, 0⟩

/-- Concrete instance of `SSB_DRAG_motzoi_zero` on the two-sample axis
`[0, 1]`. -/
theorem SSB_DRAG_motzoi_zero_witness :
    subtractOffset (derivGaussEnv pC8 [0, 1]) = List.replicate 2 0 ∧
    SSB_DRAG_pulse.chan_wf pC8 "I" [0, 1] =
      some (subtractOffset (gaussEnv pC8 [0, 1])) := by
  have h := SSB_DRAG_motzoi_zero pC8 [0, 1] rfl
  refine ⟨h.1, ?_⟩
  refine h.2 rfl rfl rfl (by simp) ?_ (by decide)
  intro t ht
  rcases List.mem_cons.1 ht with rfl | ht'
  · norm_num [SSB_DRAG_pulse.length, pC8]
  · rcases List.mem_singleton.1 ht' with rfl
    norm_num [SSB_DRAG_pulse.length, pC8]
